import Mathlib

/-!
Shallow embedding of the ingestion and derivation core of the
leveraged-loan-tracker repository (src/fred_service.py, src/models.py),
together with proofs about the claims of its specification.

Modelling conventions:
* Calendar dates are pairs (year, ordinal day), ordered lexicographically,
  reflecting total order on Python datetimes.
* Float observation values are modelled as rationals: the code never computes
  with them, it only copies and compares them, so any type with decidable
  equality is faithful.  A pandas NaN is modelled as `none` in `Option ℚ`.
* The SQLAlchemy tables are lists of rows.  `db.add` appends a row,
  update-in-place rewrites the row at its position, `db.query(...).first()`
  is a first-match scan, ordering by date is insertion sort.  Session
  rollback is modelled by returning the pre-call table (the transaction is
  discarded).  Sessions are created with `autoflush=False`
  (database.py, sessionmaker), so within one call a `db.query(...).first()`
  does not see rows that `db.add` appended earlier in the same call: the
  store loop therefore decides presence against the table as it stood when
  the call started, while attribute updates of rows that do exist there are
  applied to the working state (the query returns the identity-mapped
  session object carrying any pending modifications).
* Timestamps (datetime.utcnow) are abstract `Nat` ticks.
* Surrogate `id` and `created_at` columns are carried where a claim can see
  them; the autoincrement id itself is the list position.
-/

namespace LoanTracker

/-- A calendar date: (year, ordinal day within the year), compared
lexicographically like Python datetimes. -/
structure Date where
  year : Nat
  ordinal : Nat
deriving DecidableEq, Repr

/-- Total order on dates (lexicographic on year, then ordinal). -/
def Date.le (a b : Date) : Bool :=
  a.year < b.year || (a.year = b.year && a.ordinal ≤ b.ordinal)

/-- Row of the market_data table (models.MarketData): one observation of one
series on one date. -/
structure MarketData where
  date : Date
  series_id : String
  series_name : String
  value : ℚ
  created_at : Nat
  updated_at : Nat
deriving DecidableEq, Repr

/-- Row of the recession_periods table (models.RecessionPeriod). -/
structure RecessionPeriod where
  start_date : Date
  end_date : Option Date
  name : String
  description : Option String
deriving DecidableEq, Repr

/-- Row of the data_fetch_log table (models.DataFetchLog). -/
structure DataFetchLog where
  series_id : String
  status : String
  records_fetched : Nat
  error_message : Option String
  start_date : Date
  end_date : Option Nat
deriving DecidableEq, Repr

/-! ### store_series_data (FredDataService.store_series_data) -/

/-- `db.query(MarketData).filter(date == d, series_id == sid).first()`:
the first row matching the natural key, if any. -/
def findObs : List MarketData → Date → String → Option MarketData
  | [], _, _ => none
  | r :: rs, d, sid =>
      if r.date = d ∧ r.series_id = sid then some r else findObs rs d sid

/-- Update-in-place of the first row matching the natural key: the code sets
`existing.value` and `existing.updated_at` on the row returned by `.first()`. -/
def updateObs : List MarketData → Date → String → ℚ → Nat → List MarketData
  | [], _, _, _, _ => []
  | r :: rs, d, sid, v, now =>
      if r.date = d ∧ r.series_id = sid then
        { r with value := v, updated_at := now } :: rs
      else
        r :: updateObs rs d sid v now

/-- The loop of store_series_data over the fetched (date, value) pairs.
NaN values are skipped (`pd.isna`); every other pair is counted and either
updates or inserts.  Because the session is `autoflush=False`, the per-row
`db.query(...).first()` runs against `t0`, the table as committed when the
call started: it does not see rows added earlier in the same call.  When the
key exists in `t0`, the returned object is the identity-mapped session row,
so the assignment lands on the working state `w` (which carries pending
modifications); when it does not, a fresh row is `db.add`-ed to `w` even if
an identical key is already pending there. -/
def storeLoop (sid sname : String) (now : Nat) (t0 : List MarketData) :
    List (Date × Option ℚ) → List MarketData → Nat → List MarketData × Nat
  | [], w, n => (w, n)
  | (_, none) :: rest, w, n => storeLoop sid sname now t0 rest w n
  | (d, some v) :: rest, w, n =>
      if (findObs t0 d sid).isSome then
        storeLoop sid sname now t0 rest (updateObs w d sid v now) (n + 1)
      else
        storeLoop sid sname now t0 rest (w ++ [⟨d, sid, sname, v, now, now⟩])
          (n + 1)

/-- FredDataService.store_series_data, success path: reconcile the fetched
data against the table and return (table after commit, records_stored).
The snapshot the lookups see and the initial working state are both the
table at call start. -/
def storeSeriesData (t : List MarketData) (sid sname : String)
    (data : List (Date × Option ℚ)) (now : Nat) : List MarketData × Nat :=
  storeLoop sid sname now t data t 0

/-- The store loop with an injected persistence failure.  `failAt = some k`
makes the k-th row write raise, or the final `db.commit()` raise when fewer
than k + 1 rows are written; `failAt = none` is the untroubled run.  The
lookups run against the call-start snapshot `t0`, like `storeLoop`. -/
def storeLoopF (sid sname : String) (now : Nat) (failAt : Option Nat)
    (t0 : List MarketData) :
    List (Date × Option ℚ) → List MarketData → Nat →
    Except String (List MarketData × Nat)
  | [], w, n =>
      if failAt.isSome then Except.error "StoreError" else Except.ok (w, n)
  | (_, none) :: rest, w, n => storeLoopF sid sname now failAt t0 rest w n
  | (d, some v) :: rest, w, n =>
      if failAt = some n then Except.error "StoreError"
      else if (findObs t0 d sid).isSome then
        storeLoopF sid sname now failAt t0 rest (updateObs w d sid v now) (n + 1)
      else
        storeLoopF sid sname now failAt t0 rest
          (w ++ [⟨d, sid, sname, v, now, now⟩]) (n + 1)

/-- FredDataService.store_series_data with transaction semantics: the rows
touched inside the loop become durable only at `db.commit()`; when the loop
or the commit raises, the except branch calls `db.rollback()`, which discards
every pending write, and re-raises, so the caller sees the original table
next to the propagated error. -/
def storeSeriesDataF (t : List MarketData) (sid sname : String)
    (data : List (Date × Option ℚ)) (now : Nat) (failAt : Option Nat) :
    Except String Nat × List MarketData :=
  match storeLoopF sid sname now failAt t data t 0 with
  | Except.error e => (Except.error e, t)
  | Except.ok (t2, n) => (Except.ok n, t2)

/-- The natural key of an observation row. -/
def obsKey (r : MarketData) : Date × String :=
  (r.date, r.series_id)

/-- All rows carrying the given natural key, in table order. -/
def rowsAt : List MarketData → Date → String → List MarketData
  | [], _, _ => []
  | r :: rs, d, sid =>
      if r.date = d ∧ r.series_id = sid then r :: rowsAt rs d sid
      else rowsAt rs d sid

/-- A sequence of ingestion store calls, each carrying the series id and
name, the fetched data, and the call timestamp. -/
def runStoreCalls : List MarketData →
    List (String × String × List (Date × Option ℚ) × Nat) → List MarketData
  | t, [] => t
  | t, (sid, sname, data, now) :: rest =>
      runStoreCalls (storeSeriesData t sid sname data now).1 rest

/-! ### process_recession_indicators (FredDataService.process_recession_indicators) -/

/-- The literal dictionary of _get_recession_name, in insertion order. -/
def recessionNames : List (Nat × String) :=
  [(1980, "Early 1980s Recession"), (1981, "1981-1982 Recession"),
   (1990, "Early 1990s Recession"), (2001, "Early 2000s Recession"),
   (2007, "Great Recession"), (2020, "COVID-19 Recession")]

/-- FredDataService._get_recession_name: first known label whose year is
within one of the start year, else a generic label containing the year. -/
def getRecessionName (start_date : Date) : String :=
  let year := start_date.year
  match recessionNames.find?
      (fun p => decide ((Int.ofNat year - Int.ofNat p.1).natAbs ≤ 1)) with
  | some p => p.2
  | none => toString year ++ " Recession"

/-- Insert one observation into a list sorted ascending by date. -/
def insertByDate (r : MarketData) : List MarketData → List MarketData
  | [] => [r]
  | x :: xs => if Date.le r.date x.date then r :: x :: xs else x :: insertByDate r xs

/-- `order_by(MarketData.date)`: sort the query result ascending by date. -/
def sortByDate : List MarketData → List MarketData
  | [] => []
  | r :: rs => insertByDate r (sortByDate rs)

/-- `db.query(RecessionPeriod).filter(start_date == s).first()`: the first
interval row with the given start date, if any. -/
def findPeriod : List RecessionPeriod → Date → Option RecessionPeriod
  | [], _ => none
  | p :: ps, s => if p.start_date = s then some p else findPeriod ps s

/-- The scan of process_recession_indicators over the ordered indicator rows.
The state collapses `in_recession`/`recession_start`, which the code always
sets and clears together: `some s` is in_recession with pending start `s`.
On a 1-to-0 transition, and for a still-open run at the end of the data, a
new row is added only when no existing row has that start_date; an existing
row is never modified. -/
def scanRecession : List MarketData → Option Date → List RecessionPeriod →
    List RecessionPeriod
  | [], state, periods =>
      match state with
      | some s =>
          if (findPeriod periods s).isSome then periods
          else periods ++ [⟨s, none, getRecessionName s, none⟩]
      | none => periods
  | r :: rest, state, periods =>
      match state with
      | none =>
          if r.value = 1 then scanRecession rest (some r.date) periods
          else scanRecession rest none periods
      | some s =>
          if r.value = 0 then
            let periods' :=
              if (findPeriod periods s).isSome then periods
              else periods ++ [⟨s, some r.date, getRecessionName s, none⟩]
            scanRecession rest none periods'
          else scanRecession rest (some s) periods

/-- FredDataService.process_recession_indicators: read all USREC observations
ordered by date, return early when there are none, otherwise run the scan and
commit the resulting recession_periods table. -/
def processRecessionIndicators (market : List MarketData)
    (periods : List RecessionPeriod) : List RecessionPeriod :=
  let recessionData := sortByDate (market.filter (fun r => decide (r.series_id = "USREC")))
  if recessionData.isEmpty then periods
  else scanRecession recessionData none periods

/-! ### fetch_series_data and the batch orchestration -/

/-- FredDataService.fetch_series_data: forwards the request verbatim to the
external source adapter (fred.get_series) and returns its response,
re-raising any failure after logging it.  The second component is the trace
of external fetch calls the function issues: exactly one, with the given
arguments, for every input, because the code performs no validation of the
date range before fetching. -/
def fetchSeriesData
    (oracle : String → Date → Option Date → Except String (List (Date × Option ℚ)))
    (sid : String) (start_date : Date) (end_date : Option Date) :
    Except String (List (Date × Option ℚ)) × List (String × Date × Option Date) :=
  (oracle sid start_date end_date, [(sid, start_date, end_date)])

/-- The database state the batch orchestration writes to. -/
structure DbState where
  market : List MarketData
  logs : List DataFetchLog
deriving Repr

/-- Per-series outcome of the batch orchestration, the value stored in its
results dictionary. -/
inductive SeriesResult
  | success (records : Nat) (series_name : String)
  | failed (error : String)
deriving DecidableEq, Repr

/-- The status string that fetch_and_store_all_series records. -/
def SeriesResult.status : SeriesResult → String
  | success _ _ => "success"
  | failed _ => "failed"

/-- One iteration of fetch_and_store_all_series for the configured series
(key, sid).  The oracles stand for the external collaborators: `infoOracle`
models get_series_info (none when it fails internally, in which case the
series key is used as the display name), `fetchOracle` models
fred.get_series, and `storeFailAt` injects persistence failures into
store_series_data.  A fetch or store failure is caught and recorded as a
failure log row; a success commits the stored rows and records a success
log row.  In both cases exactly one DataFetchLog row is appended. -/
def processSeries (infoOracle : String → Option String)
    (fetchOracle : String → Except String (List (Date × Option ℚ)))
    (storeFailAt : String → Option Nat) (rangeStart : Date) (now : Nat)
    (key sid : String) (st : DbState) : DbState × SeriesResult :=
  let sname := (infoOracle sid).getD key
  match fetchOracle sid with
  | Except.error e =>
      (⟨st.market, st.logs ++ [⟨sid, "failed", 0, some e, rangeStart, none⟩]⟩,
        SeriesResult.failed e)
  | Except.ok data =>
      let res := storeSeriesDataF st.market sid sname data now (storeFailAt sid)
      match res.1 with
      | Except.error e =>
          (⟨res.2, st.logs ++ [⟨sid, "failed", 0, some e, rangeStart, none⟩]⟩,
            SeriesResult.failed e)
      | Except.ok n =>
          (⟨res.2, st.logs ++ [⟨sid, "success", n, none, rangeStart, some now⟩]⟩,
            SeriesResult.success n sname)

/-- FredDataService.fetch_and_store_all_series: attempt every configured
series in order, catching per-series failures so that one failure does not
abort the remaining series, and collect the per-series results. -/
def fetchAndStoreAllSeries (infoOracle : String → Option String)
    (fetchOracle : String → Except String (List (Date × Option ℚ)))
    (storeFailAt : String → Option Nat) (rangeStart : Date) (now : Nat) :
    List (String × String) → DbState → DbState × List (String × SeriesResult)
  | [], st => (st, [])
  | (key, sid) :: rest, st =>
      let step := processSeries infoOracle fetchOracle storeFailAt rangeStart now
          key sid st
      let next := fetchAndStoreAllSeries infoOracle fetchOracle storeFailAt
          rangeStart now rest step.1
      (next.1, (key, step.2) :: next.2)

/-! ### Projection of observation rows to their visible content

The idempotence property of the spec compares tables up to `updated_at`
timestamps, so we project each row to every other column the store step can
write and show the projected tables agree. -/

/-- Every column of an observation row except the write timestamps. -/
structure ObsProj where
  date : Date
  series_id : String
  series_name : String
  value : ℚ
deriving DecidableEq, Repr

/-- Project one row. -/
def obsProj (r : MarketData) : ObsProj :=
  ⟨r.date, r.series_id, r.series_name, r.value⟩

/-- Project a table. -/
def tableProj (t : List MarketData) : List ObsProj :=
  t.map obsProj

/-- Natural-key lookup on projected rows. -/
def findObsP : List ObsProj → Date → String → Option ObsProj
  | [], _, _ => none
  | r :: rs, d, sid =>
      if r.date = d ∧ r.series_id = sid then some r else findObsP rs d sid

/-- `updateObs` on projected rows. -/
def updateObsP : List ObsProj → Date → String → ℚ → List ObsProj
  | [], _, _, _ => []
  | r :: rs, d, sid, v =>
      if r.date = d ∧ r.series_id = sid then { r with value := v } :: rs
      else r :: updateObsP rs d sid v

/-- The store loop on projected rows, with the same call-start snapshot
`t0` deciding the update-or-insert branch. -/
def storeLoopP (sid sname : String) (t0 : List ObsProj) :
    List (Date × Option ℚ) → List ObsProj → List ObsProj
  | [], w => w
  | (_, none) :: rest, w => storeLoopP sid sname t0 rest w
  | (d, some v) :: rest, w =>
      if (findObsP t0 d sid).isSome then
        storeLoopP sid sname t0 rest (updateObsP w d sid v)
      else
        storeLoopP sid sname t0 rest (w ++ [⟨d, sid, sname, v⟩])

/-- Shorthand for one USREC observation row on day `o` of year 2000. -/
def usrec (o : Nat) (v : ℚ) : MarketData :=
  ⟨⟨2000, o⟩, "USREC", "NBER based Recession Indicators", v, 0, 0⟩

/-- History [0,1,1] on days 1..3. -/
def histOpen : List MarketData := [usrec 1 0, usrec 2 1, usrec 3 1]

/-- The same history refreshed with a closing 0 on day 4. -/
def histClosed : List MarketData := histOpen ++ [usrec 4 0]

/-- The closed history further extended with a new 1 on day 5. -/
def histReopened : List MarketData := histClosed ++ [usrec 5 1]

end LoanTracker

namespace LoanTracker

/-- Claim C6: on indicator values [0,0,1,1,1,0,0] carried on seven consecutive
dates, a derivation run from an empty interval table produces exactly one
interval, starting at the third date and ending at the sixth. -/
theorem C6_interval_example :
    (processRecessionIndicators
        [usrec 1 0, usrec 2 0, usrec 3 1, usrec 4 1, usrec 5 1, usrec 6 0, usrec 7 0]
        []).map (fun p => (p.start_date, p.end_date))
      = [(⟨2000, 3⟩, some ⟨2000, 6⟩)] := by
  decide

/-- Claim C1, evaluation at the failing input: deriving over [0,1,1] records
the open interval (day 2, none); re-deriving after the history is refreshed
to [0,1,1,0] leaves that interval with end_date still `none` instead of
updating it to day 4 (no duplicate is inserted either). -/
theorem C1_code_eval :
    (processRecessionIndicators histOpen []).map (fun p => (p.start_date, p.end_date))
        = [(⟨2000, 2⟩, none)]
    ∧ (processRecessionIndicators histClosed
          (processRecessionIndicators histOpen [])).map
            (fun p => (p.start_date, p.end_date))
        = [(⟨2000, 2⟩, none)] := by
  decide

/-- Claim C2, evaluation at the failing input: after deriving over [0,1,1]
and re-deriving over the refreshed history [0,1,1,0,1], the interval table
holds two rows with end_date = none: the stale open interval from day 2 and
the new open interval from day 5. -/
theorem C2_code_eval :
    ((processRecessionIndicators histReopened
        (processRecessionIndicators histOpen [])).filter
          (fun p => decide (p.end_date = none))).map
            (fun p => (p.start_date, p.end_date))
      = [(⟨2000, 2⟩, none), (⟨2000, 5⟩, none)] := by
  decide

/-! ### The store step commutes with the projection to non-timestamp columns -/

theorem tableProj_updateObs (t : List MarketData) (d : Date) (sid : String)
    (v : ℚ) (now : Nat) :
    tableProj (updateObs t d sid v now) = updateObsP (tableProj t) d sid v := by
  induction t with
  | nil => rfl
  | cons r rs ih =>
      by_cases h : r.date = d ∧ r.series_id = sid
      · simp [updateObs, updateObsP, tableProj, obsProj, h]
      · simp only [updateObs, updateObsP, tableProj, obsProj, if_neg h,
          List.map_cons, List.cons.injEq, true_and]
        exact ih

theorem findObsP_tableProj (t : List MarketData) (d : Date) (sid : String) :
    findObsP (tableProj t) d sid = (findObs t d sid).map obsProj := by
  induction t with
  | nil => rfl
  | cons r rs ih =>
      by_cases h : r.date = d ∧ r.series_id = sid
      · simp [findObsP, findObs, tableProj, obsProj, h]
      · simp only [findObsP, findObs, tableProj, obsProj, if_neg h, List.map_cons]
        exact ih

theorem findObsP_tableProj_isSome (t : List MarketData) (d : Date)
    (sid : String) :
    (findObsP (tableProj t) d sid).isSome = (findObs t d sid).isSome := by
  rw [findObsP_tableProj]
  cases findObs t d sid <;> rfl

theorem tableProj_storeLoop (sid sname : String) (now : Nat)
    (t0 : List MarketData) :
    ∀ (data : List (Date × Option ℚ)) (w : List MarketData) (n : Nat),
      tableProj (storeLoop sid sname now t0 data w n).1
        = storeLoopP sid sname (tableProj t0) data (tableProj w) := by
  intro data
  induction data with
  | nil => intro w n; rfl
  | cons p rest ih =>
      intro w n
      obtain ⟨d, v?⟩ := p
      cases v? with
      | none => simpa [storeLoop, storeLoopP] using ih w n
      | some v =>
          by_cases hb : (findObs t0 d sid).isSome
          · have hbP : (findObsP (tableProj t0) d sid).isSome :=
              (findObsP_tableProj_isSome t0 d sid).symm ▸ hb
            simp only [storeLoop, storeLoopP, if_pos hb, if_pos hbP]
            rw [ih, tableProj_updateObs]
          · have hbP : ¬(findObsP (tableProj t0) d sid).isSome := fun hx =>
              hb ((findObsP_tableProj_isSome t0 d sid).symm.trans hx)
            simp only [storeLoop, storeLoopP, if_neg hb, if_neg hbP]
            rw [ih]
            congr 1
            simp [tableProj, obsProj]

/-! ### Idempotence of the projected store loop -/

theorem findObsP_append_of_none (t l : List ObsProj) (d : Date) (sid : String)
    (h : findObsP t d sid = none) :
    findObsP (t ++ l) d sid = findObsP l d sid := by
  induction t with
  | nil => rfl
  | cons r rs ih =>
      by_cases hr : r.date = d ∧ r.series_id = sid
      · simp [findObsP, hr] at h
      · simp only [List.cons_append, findObsP, if_neg hr] at h ⊢
        exact ih h

theorem findObsP_updateObsP (t : List ObsProj) (d : Date) (sid : String) (v : ℚ)
    (h : (findObsP t d sid).isSome) :
    ∃ sn, findObsP (updateObsP t d sid v) d sid = some ⟨d, sid, sn, v⟩ := by
  induction t with
  | nil => simp [findObsP] at h
  | cons r rs ih =>
      by_cases hr : r.date = d ∧ r.series_id = sid
      · refine ⟨r.series_name, ?_⟩
        simp only [updateObsP, if_pos hr, findObsP]
        rw [hr.1, hr.2]
      · simp only [findObsP, if_neg hr] at h
        obtain ⟨sn, hsn⟩ := ih h
        refine ⟨sn, ?_⟩
        simp only [updateObsP, if_neg hr, findObsP]
        exact hsn

theorem findObsP_updateObsP_other (t : List ObsProj) (dq du : Date)
    (sid : String) (v : ℚ) (hne : du ≠ dq) :
    findObsP (updateObsP t du sid v) dq sid = findObsP t dq sid := by
  induction t with
  | nil => rfl
  | cons r rs ih =>
      by_cases hr : r.date = du ∧ r.series_id = sid
      · have hq : ¬(r.date = dq ∧ r.series_id = sid) := by
          rintro ⟨h1, _⟩
          exact hne (hr.1.symm.trans h1)
        simp only [updateObsP, if_pos hr, findObsP]
        rw [if_neg hq, if_neg hq]
      · simp only [updateObsP, if_neg hr, findObsP]
        by_cases hq : r.date = dq ∧ r.series_id = sid
        · rw [if_pos hq, if_pos hq]
        · rw [if_neg hq, if_neg hq]
          exact ih

theorem findObsP_append_single_other (t : List ObsProj) (dq du : Date)
    (sid sname : String) (v : ℚ) (hne : du ≠ dq) :
    findObsP (t ++ [⟨du, sid, sname, v⟩]) dq sid = findObsP t dq sid := by
  induction t with
  | nil => simp [findObsP, hne]
  | cons r rs ih =>
      simp only [List.cons_append, findObsP]
      by_cases hq : r.date = dq ∧ r.series_id = sid
      · rw [if_pos hq, if_pos hq]
      · rw [if_neg hq, if_neg hq]
        exact ih

theorem findObsP_storeLoopP_frame (sid sname : String) (t0 : List ObsProj)
    (dq : Date) :
    ∀ (data : List (Date × Option ℚ)) (w : List ObsProj),
      dq ∉ data.map Prod.fst →
      findObsP (storeLoopP sid sname t0 data w) dq sid = findObsP w dq sid := by
  intro data
  induction data with
  | nil => intro w _; rfl
  | cons p rest ih =>
      intro w hd
      obtain ⟨d, v?⟩ := p
      simp only [List.map_cons, List.mem_cons, not_or] at hd
      obtain ⟨hd1, hd2⟩ := hd
      cases v? with
      | none => simpa [storeLoopP] using ih w hd2
      | some v =>
          by_cases hb : (findObsP t0 d sid).isSome
          · simp only [storeLoopP, if_pos hb]
            rw [ih _ hd2, findObsP_updateObsP_other _ _ _ _ _ (Ne.symm hd1)]
          · simp only [storeLoopP, if_neg hb]
            rw [ih _ hd2, findObsP_append_single_other _ _ _ _ _ _ (Ne.symm hd1)]

theorem updateObsP_noop (t : List ObsProj) (d : Date) (sid sn : String) (v : ℚ)
    (h : findObsP t d sid = some ⟨d, sid, sn, v⟩) :
    updateObsP t d sid v = t := by
  induction t with
  | nil => rfl
  | cons r rs ih =>
      by_cases hr : r.date = d ∧ r.series_id = sid
      · simp only [findObsP, if_pos hr, Option.some.injEq] at h
        simp only [updateObsP, if_pos hr]
        cases r with
        | mk rdate rsid rname rvalue =>
            simp only [ObsProj.mk.injEq] at h
            obtain ⟨h1, h2, h3, h4⟩ := h
            simp [h4]
      · simp only [findObsP, if_neg hr] at h
        simp only [updateObsP, if_neg hr]
        rw [ih h]

/-- After a store run over data with pairwise distinct dates, the first row
matching each stored (date, series) key in the resulting working table
carries exactly the stored value.  The two side conditions relate the
working table to the lookup snapshot `t0` at the dates of the run: keys the
snapshot lacks have no match in the working table yet, keys it has are
present.  Both hold trivially at the start of a call, where the working
table is the snapshot itself. -/
theorem storeLoopP_first_match (sid sname : String) (t0 : List ObsProj) :
    ∀ (data : List (Date × Option ℚ)) (w : List ObsProj),
      (data.map Prod.fst).Nodup →
      (∀ d' ∈ data.map Prod.fst,
        findObsP t0 d' sid = none → findObsP w d' sid = none) →
      (∀ d' ∈ data.map Prod.fst,
        (findObsP t0 d' sid).isSome → (findObsP w d' sid).isSome) →
      ∀ d v, (d, some v) ∈ data →
        ∃ sn, findObsP (storeLoopP sid sname t0 data w) d sid
            = some ⟨d, sid, sn, v⟩ := by
  intro data
  induction data with
  | nil => intro w _ _ _ d v hmem; cases hmem
  | cons p rest ih =>
      intro w hnd hA hS d v hmem
      obtain ⟨d0, v?⟩ := p
      simp only [List.map_cons, List.nodup_cons] at hnd
      obtain ⟨hd0, hrest⟩ := hnd
      cases v? with
      | none =>
          have hmem' : (d, some v) ∈ rest := by
            rcases List.mem_cons.mp hmem with h | h
            · exact absurd (congrArg Prod.snd h) (by simp)
            · exact h
          simp only [storeLoopP]
          exact ih w hrest (fun d' hd' => hA d' (by simp [hd']))
            (fun d' hd' => hS d' (by simp [hd'])) d v hmem'
      | some v0 =>
          by_cases hb : (findObsP t0 d0 sid).isSome
          · simp only [storeLoopP, if_pos hb]
            rcases List.mem_cons.mp hmem with h | h
            · injection h with h1 h2
              injection h2 with h2
              subst h1
              subst h2
              have hwS : (findObsP w d sid).isSome := hS d (by simp) hb
              obtain ⟨sn, hsn⟩ := findObsP_updateObsP w d sid v hwS
              refine ⟨sn, ?_⟩
              rw [findObsP_storeLoopP_frame sid sname t0 d rest
                  (updateObsP w d sid v) hd0]
              exact hsn
            · refine ih _ hrest ?_ ?_ d v h
              · intro d' hd' ht0
                have hne : d0 ≠ d' := fun hc => hd0 (by rw [hc]; exact hd')
                rw [findObsP_updateObsP_other w d' d0 sid v0 hne]
                exact hA d' (by simp [hd']) ht0
              · intro d' hd' ht0
                have hne : d0 ≠ d' := fun hc => hd0 (by rw [hc]; exact hd')
                rw [findObsP_updateObsP_other w d' d0 sid v0 hne]
                exact hS d' (by simp [hd']) ht0
          · simp only [storeLoopP, if_neg hb]
            rcases List.mem_cons.mp hmem with h | h
            · injection h with h1 h2
              injection h2 with h2
              subst h1
              subst h2
              have hwnone : findObsP w d sid = none :=
                hA d (by simp) (Option.not_isSome_iff_eq_none.mp hb)
              refine ⟨sname, ?_⟩
              rw [findObsP_storeLoopP_frame sid sname t0 d rest
                  (w ++ [(⟨d, sid, sname, v⟩ : ObsProj)]) hd0]
              rw [findObsP_append_of_none w _ d sid hwnone]
              simp [findObsP]
            · refine ih _ hrest ?_ ?_ d v h
              · intro d' hd' ht0
                have hne : d0 ≠ d' := fun hc => hd0 (by rw [hc]; exact hd')
                rw [findObsP_append_single_other w d' d0 sid sname v0 hne]
                exact hA d' (by simp [hd']) ht0
              · intro d' hd' ht0
                have hne : d0 ≠ d' := fun hc => hd0 (by rw [hc]; exact hd')
                rw [findObsP_append_single_other w d' d0 sid sname v0 hne]
                exact hS d' (by simp [hd']) ht0

/-- A store run over a snapshot in which every stored pair already sits as
the value of the first matching row changes nothing: every lookup hits the
snapshot, every branch is an update, and every update is the identity. -/
theorem storeLoopP_noop (sid sname : String) (t0 : List ObsProj) :
    ∀ data : List (Date × Option ℚ),
      (∀ d v, (d, some v) ∈ data →
        ∃ sn, findObsP t0 d sid = some ⟨d, sid, sn, v⟩) →
      storeLoopP sid sname t0 data t0 = t0 := by
  intro data
  induction data with
  | nil => intro _; rfl
  | cons p rest ih =>
      intro hfm
      obtain ⟨d, v?⟩ := p
      cases v? with
      | none =>
          simp only [storeLoopP]
          exact ih fun d' v' h => hfm d' v' (List.mem_cons_of_mem _ h)
      | some v =>
          obtain ⟨sn, hsn⟩ := hfm d v (List.mem_cons_self _ _)
          have hb : (findObsP t0 d sid).isSome := by rw [hsn]; rfl
          simp only [storeLoopP, if_pos hb]
          rw [updateObsP_noop t0 d sid sn v hsn]
          exact ih fun d' v' h => hfm d' v' (List.mem_cons_of_mem _ h)

/-- Claim C3: storing the same fetched sequence twice leaves every column of
the Observation table except updated_at unchanged after the second run; the
(date, series_id, value) set of the spec is a projection of this. The
hypothesis records that a fetched series carries at most one value per date. -/
theorem C3_store_idempotent (t : List MarketData) (sid sname : String)
    (data : List (Date × Option ℚ)) (now1 now2 : Nat)
    (h : (data.map Prod.fst).Nodup) :
    tableProj (storeSeriesData (storeSeriesData t sid sname data now1).1
        sid sname data now2).1
      = tableProj (storeSeriesData t sid sname data now1).1 := by
  unfold storeSeriesData
  rw [tableProj_storeLoop, tableProj_storeLoop]
  apply storeLoopP_noop
  intro d v hdv
  exact storeLoopP_first_match sid sname (tableProj t) data (tableProj t) h
    (fun d' _ hnone => hnone) (fun d' _ hsome => hsome) d v hdv

/-- Witness for C3 at a concrete table and fetched sequence. -/
theorem C3_store_idempotent_witness :
    (([((⟨2020, 1⟩ : Date), some (5 : ℚ)), (⟨2020, 2⟩, none)].map Prod.fst).Nodup)
    ∧ tableProj (storeSeriesData (storeSeriesData [] "GDP" "Gross Domestic Product"
          [(⟨2020, 1⟩, some 5), (⟨2020, 2⟩, none)] 0).1
          "GDP" "Gross Domestic Product"
          [(⟨2020, 1⟩, some 5), (⟨2020, 2⟩, none)] 1).1
      = tableProj (storeSeriesData [] "GDP" "Gross Domestic Product"
          [(⟨2020, 1⟩, some 5), (⟨2020, 2⟩, none)] 0).1 :=
  ⟨by decide, C3_store_idempotent [] "GDP" "Gross Domestic Product"
      [(⟨2020, 1⟩, some 5), (⟨2020, 2⟩, none)] 0 1 (by decide)⟩

/-! ### Atomicity of the store step under injected persistence failures -/

theorem storeLoopF_error (sid sname : String) (now k : Nat)
    (t0 : List MarketData) :
    ∀ (data : List (Date × Option ℚ)) (w : List MarketData) (n : Nat),
      storeLoopF sid sname now (some k) t0 data w n
        = Except.error "StoreError" := by
  intro data
  induction data with
  | nil => intro w n; simp [storeLoopF]
  | cons p rest ih =>
      intro w n
      obtain ⟨d, v?⟩ := p
      cases v? with
      | none => simpa [storeLoopF] using ih w n
      | some v =>
          by_cases hk : (some k : Option Nat) = some n
          · simp [storeLoopF, hk]
          · by_cases hb : (findObs t0 d sid).isSome
            · simp only [storeLoopF, if_neg hk, if_pos hb]
              exact ih _ _
            · simp only [storeLoopF, if_neg hk, if_neg hb]
              exact ih _ _

/-- Claim C4: whenever the persistence step of a store call fails partway
(at any row write, or at the commit), the error is propagated to the caller
and the Observation table is exactly as it was before the call. -/
theorem C4_store_failure_atomic (t : List MarketData) (sid sname : String)
    (data : List (Date × Option ℚ)) (now k : Nat) :
    storeSeriesDataF t sid sname data now (some k)
      = (Except.error "StoreError", t) := by
  unfold storeSeriesDataF
  rw [storeLoopF_error]

/-! ### NaN values are skipped: no row touched, nothing counted -/

theorem storeLoop_count (sid sname : String) (now : Nat)
    (t0 : List MarketData) :
    ∀ (data : List (Date × Option ℚ)) (w : List MarketData) (n : Nat),
      (storeLoop sid sname now t0 data w n).2
        = n + (data.filter (fun p => p.2.isSome)).length := by
  intro data
  induction data with
  | nil => intro w n; simp [storeLoop]
  | cons p rest ih =>
      intro w n
      obtain ⟨d, v?⟩ := p
      cases v? with
      | none => simp [storeLoop, List.filter_cons, ih]
      | some v =>
          have hlen : (((d, some v) :: rest).filter
              (fun p => p.2.isSome)).length
              = (rest.filter (fun p => p.2.isSome)).length + 1 := by
            simp [List.filter_cons]
          by_cases hb : (findObs t0 d sid).isSome
          · simp only [storeLoop, if_pos hb]
            rw [ih, hlen]
            omega
          · simp only [storeLoop, if_neg hb]
            rw [ih, hlen]
            omega

theorem rowsAt_updateObs_other (t : List MarketData) (du dq : Date)
    (sid sidq : String) (v : ℚ) (now : Nat) (hne : du ≠ dq) :
    rowsAt (updateObs t du sid v now) dq sidq = rowsAt t dq sidq := by
  induction t with
  | nil => rfl
  | cons r rs ih =>
      by_cases hr : r.date = du ∧ r.series_id = sid
      · have h1 : ¬(r.date = dq ∧ r.series_id = sidq) := fun hc =>
          hne (hr.1.symm.trans hc.1)
        simp only [updateObs, if_pos hr, rowsAt]
        rw [if_neg h1, if_neg h1]
      · simp only [updateObs, if_neg hr, rowsAt]
        by_cases hq : r.date = dq ∧ r.series_id = sidq
        · rw [if_pos hq, if_pos hq, ih]
        · rw [if_neg hq, if_neg hq, ih]

theorem rowsAt_append_single_other (t : List MarketData) (du dq : Date)
    (sid sidq sname : String) (v : ℚ) (now : Nat) (hne : du ≠ dq) :
    rowsAt (t ++ [(⟨du, sid, sname, v, now, now⟩ : MarketData)]) dq sidq
      = rowsAt t dq sidq := by
  induction t with
  | nil =>
      simp only [List.nil_append, rowsAt]
      rw [if_neg (fun hc => hne hc.1)]
  | cons r rs ih =>
      simp only [List.cons_append, rowsAt]
      by_cases hq : r.date = dq ∧ r.series_id = sidq
      · rw [if_pos hq, if_pos hq]
        exact congrArg (List.cons r) ih
      · rw [if_neg hq, if_neg hq]
        exact ih

theorem rowsAt_storeLoop_frame (sid sname : String) (now : Nat)
    (t0 : List MarketData) (dq : Date) (sidq : String) :
    ∀ (data : List (Date × Option ℚ)) (w : List MarketData) (n : Nat),
      (∀ p ∈ data, p.2.isSome = true → p.1 ≠ dq) →
      rowsAt (storeLoop sid sname now t0 data w n).1 dq sidq
        = rowsAt w dq sidq := by
  intro data
  induction data with
  | nil => intro w n _; rfl
  | cons p rest ih =>
      intro w n hp
      obtain ⟨d, v?⟩ := p
      cases v? with
      | none =>
          simp only [storeLoop]
          exact ih w n (fun q hq => hp q (List.mem_cons_of_mem _ hq))
      | some v =>
          have hne : d ≠ dq := hp (d, some v) (List.mem_cons_self _ _) rfl
          by_cases hb : (findObs t0 d sid).isSome
          · simp only [storeLoop, if_pos hb]
            rw [ih _ (n + 1) (fun q hq => hp q (List.mem_cons_of_mem _ hq))]
            exact rowsAt_updateObs_other w d dq sid sidq v now hne
          · simp only [storeLoop, if_neg hb]
            rw [ih _ (n + 1) (fun q hq => hp q (List.mem_cons_of_mem _ hq))]
            exact rowsAt_append_single_other w d dq sid sidq sname v now hne

/-- Claim C5: a fetched sequence carrying the NaN sentinel at date D leaves
the rows keyed (D, series) exactly as they were, creating none when none
existed, and the returned count equals the number of non-NaN pairs, so D is
not counted.  The Nodup hypothesis records that a fetched series carries at
most one value per date. -/
theorem C5_nan_skip (t : List MarketData) (sid sname : String)
    (data : List (Date × Option ℚ)) (now : Nat) (D : Date)
    (hmem : ((D, none) : Date × Option ℚ) ∈ data)
    (hnd : (data.map Prod.fst).Nodup) :
    rowsAt (storeSeriesData t sid sname data now).1 D sid = rowsAt t D sid
    ∧ (storeSeriesData t sid sname data now).2
      = (data.filter (fun p => p.2.isSome)).length := by
  constructor
  · apply rowsAt_storeLoop_frame
    intro p hp hps hpd
    have heq : p = ((D, none) : Date × Option ℚ) :=
      List.inj_on_of_nodup_map hnd hp hmem (by simpa using hpd)
    rw [heq] at hps
    simp at hps
  · simpa [storeSeriesData] using storeLoop_count sid sname now t data t 0

/-- Witness for C5: the table holds one row at the NaN date; it stays
untouched and is not counted. -/
theorem C5_nan_skip_witness :
    (((⟨2020, 1⟩, none) : Date × Option ℚ)
        ∈ [((⟨2020, 1⟩ : Date), (none : Option ℚ)), (⟨2020, 2⟩, some 3)]
    ∧ (([((⟨2020, 1⟩ : Date), (none : Option ℚ)), (⟨2020, 2⟩, some 3)].map
          Prod.fst).Nodup))
    ∧ (rowsAt (storeSeriesData [⟨⟨2020, 1⟩, "GDP", "Gross Domestic Product", 7, 0, 0⟩]
          "GDP" "Gross Domestic Product"
          [(⟨2020, 1⟩, none), (⟨2020, 2⟩, some 3)] 1).1 ⟨2020, 1⟩ "GDP"
        = rowsAt [⟨⟨2020, 1⟩, "GDP", "Gross Domestic Product", 7, 0, 0⟩]
            ⟨2020, 1⟩ "GDP"
      ∧ (storeSeriesData [⟨⟨2020, 1⟩, "GDP", "Gross Domestic Product", 7, 0, 0⟩]
          "GDP" "Gross Domestic Product"
          [(⟨2020, 1⟩, none), (⟨2020, 2⟩, some 3)] 1).2
        = ([((⟨2020, 1⟩ : Date), (none : Option ℚ)), (⟨2020, 2⟩, some 3)].filter
            (fun p => p.2.isSome)).length) :=
  ⟨⟨by decide, by decide⟩,
    C5_nan_skip [⟨⟨2020, 1⟩, "GDP", "Gross Domestic Product", 7, 0, 0⟩]
      "GDP" "Gross Domestic Product"
      [(⟨2020, 1⟩, none), (⟨2020, 2⟩, some 3)] 1 ⟨2020, 1⟩
      (by decide) (by decide)⟩

/-! ### Natural-key uniqueness is preserved by the store step -/

theorem obsKey_updateObs (t : List MarketData) (d : Date) (sid : String)
    (v : ℚ) (now : Nat) :
    (updateObs t d sid v now).map obsKey = t.map obsKey := by
  induction t with
  | nil => rfl
  | cons r rs ih =>
      by_cases hr : r.date = d ∧ r.series_id = sid
      · simp [updateObs, hr, obsKey]
      · simp only [updateObs, if_neg hr, List.map_cons, List.cons.injEq, true_and]
        exact ih

theorem findObs_isSome_of_mem (t : List MarketData) (r : MarketData)
    (d : Date) (sid : String) (hr : r ∈ t) (h1 : r.date = d)
    (h2 : r.series_id = sid) : (findObs t d sid).isSome := by
  induction t with
  | nil => cases hr
  | cons x xs ih =>
      by_cases hx : x.date = d ∧ x.series_id = sid
      · simp [findObs, hx]
      · simp only [findObs, if_neg hx]
        rcases List.mem_cons.mp hr with h | h
        · subst h
          exact absurd ⟨h1, h2⟩ hx
        · exact ih h

theorem findObs_updateObs_other (w : List MarketData) (du dq : Date)
    (sid : String) (v : ℚ) (now : Nat) (hne : du ≠ dq) :
    findObs (updateObs w du sid v now) dq sid = findObs w dq sid := by
  induction w with
  | nil => rfl
  | cons r rs ih =>
      by_cases hr : r.date = du ∧ r.series_id = sid
      · have hq : ¬(r.date = dq ∧ r.series_id = sid) := by
          rintro ⟨h1, _⟩
          exact hne (hr.1.symm.trans h1)
        simp only [updateObs, if_pos hr, findObs]
        rw [if_neg hq, if_neg hq]
      · simp only [updateObs, if_neg hr, findObs]
        by_cases hq : r.date = dq ∧ r.series_id = sid
        · rw [if_pos hq, if_pos hq]
        · rw [if_neg hq, if_neg hq]
          exact ih

theorem findObs_append_single_other (w : List MarketData) (du dq : Date)
    (sid sname : String) (v : ℚ) (now : Nat) (hne : du ≠ dq) :
    findObs (w ++ [(⟨du, sid, sname, v, now, now⟩ : MarketData)]) dq sid
      = findObs w dq sid := by
  induction w with
  | nil =>
      simp only [List.nil_append, findObs]
      rw [if_neg (fun hc => hne hc.1)]
  | cons r rs ih =>
      simp only [List.cons_append, findObs]
      by_cases hq : r.date = dq ∧ r.series_id = sid
      · rw [if_pos hq, if_pos hq]
      · rw [if_neg hq, if_neg hq]
        exact ih

/-- The store loop preserves pairwise-distinct natural keys provided the
dates of the call are pairwise distinct.  The side condition relates the
working table to the lookup snapshot at the dates of the call: keys the
snapshot lacks have no match in the working table yet; it holds trivially at
the start of a call.  Without the distinct-dates hypothesis the preservation
fails, because lookups run against the snapshot and miss pending inserts. -/
theorem nodup_storeLoop (sid sname : String) (now : Nat)
    (t0 : List MarketData) :
    ∀ (data : List (Date × Option ℚ)) (w : List MarketData) (n : Nat),
      (data.map Prod.fst).Nodup →
      (∀ d' ∈ data.map Prod.fst,
        findObs t0 d' sid = none → findObs w d' sid = none) →
      (w.map obsKey).Nodup →
      (((storeLoop sid sname now t0 data w n).1).map obsKey).Nodup := by
  intro data
  induction data with
  | nil => intro w n _ _ h; exact h
  | cons p rest ih =>
      intro w n hnd hH h
      obtain ⟨d, v?⟩ := p
      simp only [List.map_cons, List.nodup_cons] at hnd
      obtain ⟨hdd, hrest⟩ := hnd
      have hH' : ∀ d' ∈ rest.map Prod.fst,
          findObs t0 d' sid = none → findObs w d' sid = none :=
        fun d' hd' => hH d' (by simp [hd'])
      cases v? with
      | none =>
          simp only [storeLoop]
          exact ih w n hrest hH' h
      | some v =>
          by_cases hb : (findObs t0 d sid).isSome
          · simp only [storeLoop, if_pos hb]
            refine ih _ (n + 1) hrest ?_ ?_
            · intro d' hd' ht0
              have hne : d ≠ d' := fun hc => hdd (by rw [hc]; exact hd')
              rw [findObs_updateObs_other w d d' sid v now hne]
              exact hH' d' hd' ht0
            · rw [obsKey_updateObs]
              exact h
          · simp only [storeLoop, if_neg hb]
            refine ih _ (n + 1) hrest ?_ ?_
            · intro d' hd' ht0
              have hne : d ≠ d' := fun hc => hdd (by rw [hc]; exact hd')
              rw [findObs_append_single_other w d d' sid sname v now hne]
              exact hH' d' hd' ht0
            · have hwnone : findObs w d sid = none :=
                hH d (by simp) (Option.not_isSome_iff_eq_none.mp hb)
              have hnotin : ((d, sid) : Date × String) ∉ w.map obsKey := by
                intro hin
                obtain ⟨r, hr, hk⟩ := List.mem_map.mp hin
                have h1 : r.date = d := congrArg Prod.fst hk
                have h2 : r.series_id = sid := congrArg Prod.snd hk
                have h3 := findObs_isSome_of_mem w r d sid hr h1 h2
                rw [hwnone] at h3
                exact absurd h3 (by simp)
              rw [List.map_append]
              rw [show ([(⟨d, sid, sname, v, now, now⟩ : MarketData)]).map obsKey
                  = [((d, sid) : Date × String)] from rfl]
              rw [← List.concat_eq_append]
              exact List.Nodup.concat hnotin h

/-- Claim C7, counterexample: from the empty store, which satisfies the
natural-key invariant, a single store call whose fetched data repeats one
date commits two rows with the same (date, series_id).  The per-row lookup
runs against the committed snapshot, because the session is autoflush=False,
so it misses the row pending from the first pair, and no unique constraint
stops the commit. -/
theorem C7_counterexample :
    ((([] : List MarketData).map obsKey).Nodup)
    ∧ ¬ ((runStoreCalls []
          [("GDP", "Gross Domestic Product",
            [((⟨2020, 1⟩ : Date), some (5 : ℚ)), (⟨2020, 1⟩, some 6)], 0)]).map
              obsKey).Nodup := by
  decide

/-- Claim C7, amended: after every sequence of store calls starting from a
table whose rows have pairwise distinct (date, series_id) keys, the keys are
still pairwise distinct, provided every call stores a fetched sequence whose
dates are pairwise distinct (as a date-indexed fetched series guarantees):
each such call updates in place the rows whose key the call found committed
and inserts at most one fresh row per remaining key. -/
theorem C7_natural_key_unique (t : List MarketData)
    (calls : List (String × String × List (Date × Option ℚ) × Nat))
    (h : (t.map obsKey).Nodup)
    (hc : ∀ c ∈ calls, ((c.2.2.1).map Prod.fst).Nodup) :
    ((runStoreCalls t calls).map obsKey).Nodup := by
  induction calls generalizing t with
  | nil => exact h
  | cons c rest ih =>
      obtain ⟨sid, sname, data, now⟩ := c
      refine ih _ ?_ ?_
      · exact nodup_storeLoop sid sname now t data t 0
          (hc (sid, sname, data, now) (List.mem_cons_self _ _))
          (fun d' _ hnone => hnone) h
      · exact fun c' hc' => hc c' (List.mem_cons_of_mem _ hc')

/-- Witness for the amended C7 at a concrete table and call sequence with
distinct dates. -/
theorem C7_natural_key_unique_witness :
    ((([] : List MarketData).map obsKey).Nodup
      ∧ ∀ c ∈ [("GDP", "Gross Domestic Product",
            [((⟨2020, 1⟩ : Date), some (5 : ℚ)), (⟨2020, 2⟩, some 6)], 0)],
          ((c.2.2.1).map Prod.fst).Nodup)
    ∧ ((runStoreCalls []
          [("GDP", "Gross Domestic Product",
            [((⟨2020, 1⟩ : Date), some (5 : ℚ)), (⟨2020, 2⟩, some 6)], 0)]).map
              obsKey).Nodup :=
  ⟨⟨by decide, by decide⟩,
    C7_natural_key_unique []
      [("GDP", "Gross Domestic Product",
        [(⟨2020, 1⟩, some 5), (⟨2020, 2⟩, some 6)], 0)] (by decide) (by decide)⟩

/-! ### The batch orchestration attempts every series and audits each attempt -/

theorem processSeries_logs (infoOracle : String → Option String)
    (fetchOracle : String → Except String (List (Date × Option ℚ)))
    (storeFailAt : String → Option Nat) (rangeStart : Date) (now : Nat)
    (key sid : String) (st : DbState) :
    ∃ l : DataFetchLog,
      (processSeries infoOracle fetchOracle storeFailAt rangeStart now
          key sid st).1.logs = st.logs ++ [l]
      ∧ l.series_id = sid
      ∧ l.status = (processSeries infoOracle fetchOracle storeFailAt rangeStart now
          key sid st).2.status := by
  unfold processSeries
  cases fetchOracle sid with
  | error e => exact ⟨_, rfl, rfl, rfl⟩
  | ok data =>
      cases hs : (storeSeriesDataF st.market sid ((infoOracle sid).getD key)
          data now (storeFailAt sid)).1 with
      | error e =>
          simp only [hs]
          exact ⟨_, rfl, rfl, rfl⟩
      | ok n =>
          simp only [hs]
          exact ⟨_, rfl, rfl, rfl⟩

/-- Claim C8: the batch attempts every configured series no matter which
series fail (the results list carries one entry per configured series key,
in order), and each attempt, success or failure, appends exactly one
DataFetchLog row whose series id is the attempted series and whose status
records the outcome. -/
theorem C8_batch_audit (infoOracle : String → Option String)
    (fetchOracle : String → Except String (List (Date × Option ℚ)))
    (storeFailAt : String → Option Nat) (rangeStart : Date) (now : Nat) :
    ∀ (cfg : List (String × String)) (st : DbState),
      ∃ newLogs : List DataFetchLog,
        (fetchAndStoreAllSeries infoOracle fetchOracle storeFailAt rangeStart now
            cfg st).1.logs = st.logs ++ newLogs
        ∧ newLogs.map (fun l => l.series_id) = cfg.map Prod.snd
        ∧ ((fetchAndStoreAllSeries infoOracle fetchOracle storeFailAt rangeStart now
            cfg st).2).map Prod.fst = cfg.map Prod.fst
        ∧ newLogs.map (fun l => l.status)
          = ((fetchAndStoreAllSeries infoOracle fetchOracle storeFailAt rangeStart now
              cfg st).2).map (fun r => r.2.status) := by
  intro cfg
  induction cfg with
  | nil =>
      intro st
      exact ⟨[], by simp [fetchAndStoreAllSeries], rfl, rfl, rfl⟩
  | cons c rest ih =>
      intro st
      obtain ⟨key, sid⟩ := c
      obtain ⟨l, hl, hsid, hstat⟩ := processSeries_logs infoOracle fetchOracle
          storeFailAt rangeStart now key sid st
      obtain ⟨nl, h1, h2, h3, h4⟩ := ih
          (processSeries infoOracle fetchOracle storeFailAt rangeStart now
            key sid st).1
      refine ⟨l :: nl, ?_, ?_, ?_, ?_⟩
      · simp only [fetchAndStoreAllSeries]
        rw [h1, hl, List.append_assoc, List.singleton_append]
      · simp [hsid, h2]
      · simp [fetchAndStoreAllSeries, h3]
      · simp [fetchAndStoreAllSeries, hstat, h4]

/-! ### fetch_series_data performs no range validation -/

/-- Claim C9, counterexample: the range from day 1 of 2020 back to day 1 of
2019 is inverted (the end strictly precedes the start), yet the call issues
the external fetch with exactly that range instead of rejecting it before
any fetch. -/
theorem C9_counterexample :
    Date.le ⟨2019, 1⟩ ⟨2020, 1⟩ = true
    ∧ (⟨2019, 1⟩ : Date) ≠ ⟨2020, 1⟩
    ∧ (fetchSeriesData (fun _ _ _ => Except.ok []) "GDP" ⟨2020, 1⟩
        (some ⟨2019, 1⟩)).2 ≠ [] := by
  decide

/-- Claim C9, amended: fetch_series_data performs no validation of the date
range at all: for every range, inverted or not, it issues exactly one
external fetch with the given arguments and returns the source response
unchanged; no InvalidRange rejection exists in the code. -/
theorem C9_no_range_validation
    (oracle : String → Date → Option Date → Except String (List (Date × Option ℚ)))
    (sid : String) (s : Date) (e : Option Date) :
    fetchSeriesData oracle sid s e = (oracle sid s e, [(sid, s, e)]) := rfl

/-! ### The interval deriver never touches a pre-existing interval row -/

theorem findPeriod_none_not_mem (periods : List RecessionPeriod) (s : Date)
    (h : (findPeriod periods s).isSome = false) :
    s ∉ periods.map (fun q => q.start_date) := by
  induction periods with
  | nil => simp
  | cons p ps ih =>
      by_cases hp : p.start_date = s
      · simp [findPeriod, hp] at h
      · simp only [findPeriod, if_neg hp] at h
        simp only [List.map_cons, List.mem_cons, not_or]
        exact ⟨fun hc => hp hc.symm, ih h⟩

theorem scanRecession_frame :
    ∀ (obs : List MarketData) (state : Option Date)
      (periods : List RecessionPeriod),
      ∃ news, scanRecession obs state periods = periods ++ news
        ∧ ∀ p ∈ news, p.start_date ∉ periods.map (fun q => q.start_date) := by
  intro obs
  induction obs with
  | nil =>
      intro state periods
      cases state with
      | none => exact ⟨[], by simp [scanRecession], by simp⟩
      | some s =>
          by_cases hf : (findPeriod periods s).isSome
          · refine ⟨[], ?_, by simp⟩
            simp [scanRecession, hf]
          · refine ⟨[⟨s, none, getRecessionName s, none⟩], ?_, ?_⟩
            · simp [scanRecession, hf]
            · intro p hp
              simp only [List.mem_singleton] at hp
              subst hp
              exact findPeriod_none_not_mem periods s (by simpa using hf)
  | cons r rest ih =>
      intro state periods
      cases state with
      | none =>
          by_cases hv : r.value = 1
          · simpa [scanRecession, hv] using ih (some r.date) periods
          · simpa [scanRecession, hv] using ih none periods
      | some s =>
          by_cases hv : r.value = 0
          · by_cases hf : (findPeriod periods s).isSome
            · simpa [scanRecession, hv, hf] using ih none periods
            · obtain ⟨news, h1, h2⟩ := ih none
                  (periods ++ [⟨s, some r.date, getRecessionName s, none⟩])
              refine ⟨⟨s, some r.date, getRecessionName s, none⟩ :: news, ?_, ?_⟩
              · simp [scanRecession, hv, hf, h1, List.append_assoc]
              · intro p hp
                rcases List.mem_cons.mp hp with h | h
                · subst h
                  exact findPeriod_none_not_mem periods s (by simpa using hf)
                · intro hc
                  exact h2 p h
                    (by simp only [List.map_append, List.mem_append]; exact Or.inl hc)
          · simpa [scanRecession, hv] using ih (some s) periods

/-- Claim C10: a derivation run only appends to the recession_periods table:
every pre-existing row is still present, unmodified, in its original
position, and every appended row has a start_date that matches no
pre-existing row. -/
theorem C10_derive_frame (market : List MarketData)
    (periods : List RecessionPeriod) :
    ∃ news, processRecessionIndicators market periods = periods ++ news
      ∧ ∀ p ∈ news, p.start_date ∉ periods.map (fun q => q.start_date) := by
  by_cases h : (sortByDate (market.filter
      (fun r => decide (r.series_id = "USREC")))).isEmpty
  · refine ⟨[], ?_, by simp⟩
    simp [processRecessionIndicators, h]
  · simpa [processRecessionIndicators, h] using
      scanRecession_frame
        (sortByDate (market.filter (fun r => decide (r.series_id = "USREC"))))
        none periods

end LoanTracker
